import Mathlib

/-!
Shallow embedding of the SpGEMM partial-product generation pipeline and its
verifiers, translated from the repository's Python sources:

* `partial_prod_gen.py` (COB_coprocessor): CSV matrix loader, exact product-count
  estimator, pre-allocated and streaming partial-product generators, and the
  memory-budget mode decision in `main`.
* `Mul_verifier.py` (02_rtl_only): reference loader (`load_sw`) with its dummy-row
  filter, and the outer-join report builder (`build_report`) using `np.isclose`.
* `verifier.py` (03_coprocessor/verification): `compare_recommendations` outer
  join with ID-mismatch and rating-mismatch counting.
* `cob_part1.py` / `cob_part3.py`: column-alias resolution in the CSV loader and
  the fixed-point scaling (`(products * scale_factor).astype(np.int32)`) and
  descaling (`values / scale_factor`).

Matrix values are modelled as rationals (the Python code uses float32/float64;
the claims treated here concern structural behaviour, counts, comparisons of the
values produced by identical arithmetic on both sides, and exact decimal
examples, all of which are faithfully represented by exact arithmetic).
Counts are modelled as `Nat` (the estimator's accumulator is explicitly 64-bit
in source and counts stay far below 2^63). The one bounded machine-integer
conversion that matters — the quantizer's `astype(np.int32)` — is modelled
with an explicit two's-complement wrap into the int32 range (`% 2^32`).
Fallible code (out-of-range CSR index access, which raises `IndexError` in
numpy) is modelled with `Option`.
-/

namespace SpGEMM

/-- A CSR sparse matrix as held by `scipy.sparse.csr_matrix`: dimension fields
plus the three content arrays `indptr`, `indices`, `data`. -/
structure CSR where
  rows : Nat
  cols : Nat
  indptr : List Nat
  indices : List Nat
  data : List ℚ
deriving DecidableEq

/-- `scipy`'s `nnz` field: the number of stored entries. -/
def CSR.nnz (M : CSR) : Nat := M.indices.length

/-- The stored entries of the matrix as (column index, value) pairs, in the
order the `indices`/`data` arrays hold them. -/
def CSR.entries (M : CSR) : List (Nat × ℚ) := M.indices.zip M.data

/-- The structural invariants scipy maintains for the `indptr` array of a CSR
matrix: length `rows + 1`, starts at 0, monotone, ends at `nnz`, and `data`
parallel to `indices`. -/
def CSR.StructOk (M : CSR) : Prop :=
  M.indptr.length = M.rows + 1 ∧
  M.indptr.getD 0 0 = 0 ∧
  (∀ i < M.rows, M.indptr.getD i 0 ≤ M.indptr.getD (i + 1) 0) ∧
  M.indptr.getD M.rows 0 = M.indices.length ∧
  M.data.length = M.indices.length

/-- A fully valid CSR matrix: structural invariants plus in-range column
indices. -/
def CSR.Valid (M : CSR) : Prop :=
  M.StructOk ∧ ∀ k ∈ M.indices, k < M.cols

instance (M : CSR) : Decidable M.StructOk := by
  unfold CSR.StructOk; infer_instance

instance (M : CSR) : Decidable M.Valid := by
  unfold CSR.Valid; infer_instance

/-- Row `i` of a CSR matrix as the slice
`indices[indptr[i]:indptr[i+1]]` zipped with `data[indptr[i]:indptr[i+1]]`,
exactly as the generators read it (`row_cols`, `row_vals`). -/
def CSR.rowSlice (M : CSR) (i : Nat) : List (Nat × ℚ) :=
  (M.entries.drop (M.indptr.getD i 0)).take
    (M.indptr.getD (i + 1) 0 - M.indptr.getD i 0)

/-- `np.diff(AT_csr.indptr)`: the per-row nonzero counts used as a lookup table
by `estimate_products`. -/
def nnzPerRow (M : CSR) : List Nat :=
  (List.range M.rows).map (fun r => M.indptr.getD (r + 1) 0 - M.indptr.getD r 0)

/-- `estimate_products(A_csr, AT_csr)` from `partial_prod_gen.py`: returns 0 for
an empty `A`; otherwise sums `nnz_per_AT_row[k]` over every column index `k`
stored in `A` that is inside the lookup table's range
(`A_csr.indices[A_csr.indices < len(nnz_per_AT_row)]`). -/
def estimate_products (A AT : CSR) : Nat :=
  let nnz_per_AT_row := nnzPerRow AT
  if A.nnz = 0 then 0
  else ((A.indices.filter (fun k => k < nnz_per_AT_row.length)).map
        (fun k => nnz_per_AT_row.getD k 0)).sum

/-- One elementary product triple `[prod, i, j]` with `prod = a_ik * AT[k,j]`,
as written by both generators. -/
def prodTriple (i : Nat) (a_ik : ℚ) (jv : Nat × ℚ) : ℚ × Nat × Nat :=
  (a_ik * jv.2, i, jv.1)

/-- The sequence of triples the pre-allocated generator
(`produce_products_scipy_optimized`) writes into its arrays, in write order,
before the zero-filtering step. Accessing `AT_indptr[k]` / `AT_indptr[k+1]`
outside the array raises `IndexError` in numpy, modelled as `none`. Rows of `A`
with `row_start == row_end` and rows of `AT` with
`at_row_start == at_row_end` are skipped (`continue`). -/
def preallocRaw (A AT : CSR) : Option (List (ℚ × Nat × Nat)) :=
  (List.range A.rows).foldlM (fun acc i =>
    if A.indptr.getD i 0 = A.indptr.getD (i + 1) 0 then some acc
    else (A.rowSlice i).foldlM (fun acc2 kv =>
      if kv.1 + 1 < AT.indptr.length then
        (if AT.indptr.getD kv.1 0 = AT.indptr.getD (kv.1 + 1) 0 then some acc2
         else some (acc2 ++ (AT.rowSlice kv.1).map (prodTriple i kv.2)))
      else none) acc) []

/-- The final value of `write_pos` in the pre-allocated generator: the number of
triples written before zero-filtering. -/
def preallocWriteCursor (A AT : CSR) : Option Nat :=
  (preallocRaw A AT).map List.length

/-- Return value of `produce_products_scipy_optimized`: the written triples with
zero products filtered out (`non_zero_mask = products != 0`). -/
def produce_products_scipy_optimized (A AT : CSR) : Option (List (ℚ × Nat × Nat)) :=
  (preallocRaw A AT).map (fun l => l.filter (fun t => t.1 ≠ 0))

/-- State of the streaming generator: the in-memory buffer (the used prefix of
`buf_products`/`buf_i`/`buf_j`, length `buf_pos`), the CSV rows written so far,
and `total_written`. -/
structure SState where
  buf : List (ℚ × Nat × Nat)
  out : List (ℚ × Nat × Nat)
  totalWritten : Nat
deriving DecidableEq

/-- The flush step at the end of the streaming while-body:
`if buf_pos >= chunk_size * 0.9` write the buffer out and reset `buf_pos`.
(`chunk_size * 9 ≤ buf_pos * 10` is the exact form of that comparison.) -/
def flushIfNeeded (chunk : Nat) (st : SState) : SState :=
  if chunk * 9 ≤ st.buf.length * 10 then
    { buf := [], out := st.out ++ st.buf,
      totalWritten := st.totalWritten + st.buf.length }
  else st

/-- The `while remaining_products > 0` loop of
`produce_products_stream_scipy_optimized`, for one `(i, k)` pair: take
`write_count = min(remaining_products, chunk_size - buf_pos)` elements of the
`AT` row, compute their products, filter zeros, append to the buffer when it
fits, then flush if 90% full. The loop makes no progress when `write_count`
is 0 (it then runs forever in Python), modelled by fuel exhaustion / `none`. -/
def streamInnerLoop (chunk : Nat) (i : Nat) (a_ik : ℚ) :
    Nat → List (Nat × ℚ) → SState → Option SState
  | _, [], st => some st
  | 0, _ :: _, _ => none
  | fuel + 1, r :: rs, st =>
    let rest := r :: rs
    let space_left := chunk - st.buf.length
    let write_count := min rest.length space_left
    if write_count = 0 then none
    else
      let seg := rest.take write_count
      let valid := (seg.map (prodTriple i a_ik)).filter (fun t => t.1 ≠ 0)
      let st' := if st.buf.length + valid.length ≤ chunk then
          { st with buf := st.buf ++ valid }
        else st
      streamInnerLoop chunk i a_ik fuel (rest.drop write_count)
        (flushIfNeeded chunk st')

/-- Processing of one nonzero `a_ik` of `A` by the streaming generator: read
`AT_indptr[k]` and `AT_indptr[k+1]` (`IndexError` outside the array → `none`),
skip empty `AT` rows, otherwise run the chunked while loop over the `AT` row. -/
def streamRowK (chunk : Nat) (AT : CSR) (i : Nat) (kv : Nat × ℚ) (st : SState) :
    Option SState :=
  if kv.1 + 1 < AT.indptr.length then
    if AT.indptr.getD kv.1 0 = AT.indptr.getD (kv.1 + 1) 0 then some st
    else streamInnerLoop chunk i kv.2 (AT.rowSlice kv.1).length (AT.rowSlice kv.1) st
  else none

/-- `produce_products_stream_scipy_optimized(A_csr, AT_csr, csv_path,
chunk_size)`: the row/nonzero double loop feeding `streamRowK`, followed by the
final `if buf_pos > 0` flush. The returned state's `out` is the sequence of
data rows written to the CSV and `totalWritten` is the returned
`total_written`. -/
def produce_products_stream_scipy_optimized (A AT : CSR) (chunk_size : Nat) :
    Option SState :=
  ((List.range A.rows).foldlM (fun st i =>
      if A.indptr.getD i 0 = A.indptr.getD (i + 1) 0 then some st
      else (A.rowSlice i).foldlM (fun st2 kv => streamRowK chunk_size AT i kv st2) st)
    { buf := [], out := [], totalWritten := 0 }).map
    (fun st => if 0 < st.buf.length then
        { buf := [], out := st.out ++ st.buf,
          totalWritten := st.totalWritten + st.buf.length }
      else st)

/-- The two execution strategies chosen by `main` in `partial_prod_gen.py`. -/
inductive Mode where
  | prealloc
  | stream
deriving DecidableEq

/-- The mode decision in `main`:
`bytes_per_triple = 12`, `est_mem_GiB = (products * bytes_per_triple) / 1024**3`,
`mode = "prealloc" if est_mem_GiB <= MAX_RAM_GiB else "stream"`. -/
def planMode (products : Nat) (maxRamGiB : Nat) : Mode :=
  let bytes_per_triple : Nat := 12
  if ((products * bytes_per_triple : ℚ) / 1024 ^ 3) ≤ (maxRamGiB : ℚ) then
    Mode.prealloc
  else Mode.stream

/-! ### Quantizer (`cob_part1.py` / `cob_part3.py`) -/

/-- Truncation toward zero, the rounding step of the C float-to-integer
conversion underlying numpy's `astype(np.int32)`. -/
def truncToZero (q : ℚ) : ℤ :=
  if 0 ≤ q then ⌊q⌋ else ⌈q⌉

/-- The bounded part of the 32-bit cast: two's-complement wrap of an integer
into the int32 range. On an in-range value it is the identity; on an
out-of-range value the C conversion is not defined (numpy produces some
platform-dependent 32-bit result, e.g. INT_MIN on x86), and this wrap is the
`% 2^32` stand-in for that 32-bit result required by a bounded model — no
theorem below relies on which out-of-range value is produced. -/
def int32_cast (n : ℤ) : ℤ :=
  (n + 2 ^ 31) % 2 ^ 32 - 2 ^ 31

/-- The quantization applied in `produce_similarity_products_scipy_optimized`:
`products_scaled = (products * scale_factor).astype(np.int32)` — truncation
toward zero followed by the bounded 32-bit cast. -/
def quantize_value (v : ℚ) (scale_factor : ℕ) : ℤ :=
  int32_cast (truncToZero (v * scale_factor))

/-- The descaling applied in `load_similarity_matrix_from_csv`:
`descaled_values = df['value'].values.astype(np.float32) / scale_factor`. -/
def descale_value (n : ℤ) (scale_factor : ℕ) : ℚ :=
  (n : ℚ) / scale_factor

/-! ### Coprocessor verifier (`verifier.py`, `compare_recommendations`) -/

/-- Row lookup by `(user_id, item_id)` key in a recommendations table. -/
def findRating (l : List ((Nat × Nat) × ℚ)) (k : Nat × Nat) : Option ℚ :=
  (l.find? (fun r => r.1 = k)).map Prod.snd

/-- The `_merge == 'both'` rows of the outer join: keys present in both tables,
with both predicted ratings. -/
def commonRows (golden coprocessor : List ((Nat × Nat) × ℚ)) :
    List ((Nat × Nat) × ℚ × ℚ) :=
  golden.filterMap (fun r => (findRating coprocessor r.1).map (fun v => (r.1, r.2, v)))

/-- `left_only` rows of the outer join (present only in the golden table). -/
def leftOnlyRows (golden coprocessor : List ((Nat × Nat) × ℚ)) :
    List ((Nat × Nat) × ℚ) :=
  golden.filter (fun r => (findRating coprocessor r.1).isNone)

/-- `right_only` rows of the outer join (present only in the coprocessor
table). -/
def rightOnlyRows (golden coprocessor : List ((Nat × Nat) × ℚ)) :
    List ((Nat × Nat) × ℚ) :=
  coprocessor.filter (fun s => (findRating golden s.1).isNone)

/-- `id_mismatch_count = len(merged_df[merged_df['_merge'] != 'both'])`. -/
def id_mismatch_count (golden coprocessor : List ((Nat × Nat) × ℚ)) : Nat :=
  (leftOnlyRows golden coprocessor).length + (rightOnlyRows golden coprocessor).length

/-- The common rows counted as rating mismatches:
`rating_diff = abs(golden - coprocessor)` and `rating_diff > tolerance`. -/
def rating_mismatches (golden coprocessor : List ((Nat × Nat) × ℚ))
    (tolerance : ℚ) : List ((Nat × Nat) × ℚ × ℚ) :=
  (commonRows golden coprocessor).filter (fun t => tolerance < |t.2.1 - t.2.2|)

/-- `rating_mismatch_count = (rating_diff > tolerance).sum()`. -/
def rating_mismatch_count (golden coprocessor : List ((Nat × Nat) × ℚ))
    (tolerance : ℚ) : Nat :=
  (rating_mismatches golden coprocessor tolerance).length

/-- A common pair is matched when its rating difference is within tolerance
(the complement of being counted in `rating_mismatch_count`). -/
def ratingMatched (golden coprocessor tolerance : ℚ) : Bool :=
  |golden - coprocessor| ≤ tolerance

/-! ### RTL regression checker (`Mul_verifier.py`) -/

/-- `TOL = 1e-6`, the `atol` passed to `np.isclose` in `build_report`. -/
def TOL : ℚ := 1 / 1000000

/-- `np.isclose(a, b, atol=atol)` with numpy's default relative tolerance
`rtol = 1e-5`: `|a - b| <= atol + rtol * |b|`. -/
def np_isclose (a b atol : ℚ) : Bool :=
  |a - b| ≤ atol + (1 / 100000) * |b|

/-- `groupby(["row_idx_i", "col_idx_j"])` key of an input triple
`(row_idx_i, col_idx_j, prod)`. The indices are rationals because the SW CSV
is parsed as floating point (`load_sw` compares `row_idx_i` to `0.5`). -/
def groupSumKey (r : ℚ × ℚ × ℚ) : ℚ × ℚ := (r.1, r.2.1)

/-- `groupby([...], sort=False)[...].sum()`: aggregate by key, keys in order of
first appearance, summing the value field. -/
def groupSum : List (ℚ × ℚ × ℚ) → List ((ℚ × ℚ) × ℚ)
  | [] => []
  | r :: rest =>
    (groupSumKey r,
      r.2.2 + ((rest.filter (fun s => groupSumKey s = groupSumKey r)).map
        (fun s => s.2.2)).sum)
      :: groupSum (rest.filter (fun s => groupSumKey s ≠ groupSumKey r))
termination_by l => l.length
decreasing_by
  simp only [List.length_cons]
  exact Nat.lt_succ_of_le (List.length_filter_le _ _)

/-- `load_sw` of `Mul_verifier.py` applied to the parsed triple rows:
`df = df[df["row_idx_i"] != 0.5]` (drop dummy rows), then group by
`(row_idx_i, col_idx_j)` and sum `prod` into the `gold` column. -/
def load_sw (rows : List (ℚ × ℚ × ℚ)) : List ((ℚ × ℚ) × ℚ) :=
  groupSum (rows.filter (fun r => r.1 ≠ (1 : ℚ) / 2))

/-- Lookup of the `val` column for a key after the outer merge; a key absent
from the HW side reads as the filled value 0 (`fillna({"val": 0})`). -/
def hwLookup (hw : List ((ℚ × ℚ) × ℚ)) (k : ℚ × ℚ) : ℚ :=
  ((hw.find? (fun s => s.1 = k)).map Prod.snd).getD 0

/-- `build_report(sw, hw)`: full outer merge on `(row_idx_i, col_idx_j)` with
`fillna({"gold": 0, "val": 0})` and
`match = np.isclose(gold, hw, atol=TOL)`. Each record is
`(key, gold, hw, match)`; the final `sort_values` only reorders records and is
not modelled (the claims below are about which records occur). -/
def build_report (sw hw : List ((ℚ × ℚ) × ℚ)) :
    List ((ℚ × ℚ) × ℚ × ℚ × Bool) :=
  sw.map (fun r => (r.1, r.2, hwLookup hw r.1, np_isclose r.2 (hwLookup hw r.1) TOL))
  ++ (hw.filter (fun s => !(sw.any (fun r => r.1 = s.1)))).map
      (fun s => (s.1, 0, s.2, np_isclose 0 s.2 TOL))

/-! ### CSV matrix loader column resolution (`cob_part1.py`) -/

/-- The fixed alias lists in `load_matrix_from_csv`. -/
def user_aliases : List String := ["user_id", "user", "row"]

/-- Aliases accepted for the item/column field. -/
def item_aliases : List String := ["item_id", "movie_id", "item", "col"]

/-- Aliases accepted for the rating/value field. -/
def rating_aliases : List String := ["rating", "value", "val"]

/-- The column scan of `load_matrix_from_csv`: `for col in df.columns` with an
`if/elif` chain assigning `user_col` / `item_col` / `rating_col` whenever the
column name is in the corresponding alias list (a later match overwrites an
earlier one). -/
def findColumns (columns : List String) :
    Option String × Option String × Option String :=
  columns.foldl (fun acc col =>
    if col ∈ user_aliases then (some col, acc.2.1, acc.2.2)
    else if col ∈ item_aliases then (acc.1, some col, acc.2.2)
    else if col ∈ rating_aliases then (acc.1, acc.2.1, some col)
    else acc) (none, none, none)

/-- The schema step of `load_matrix_from_csv` in `cob_part1.py`: resolve the
three columns, and `raise ValueError` when any of them was not found. -/
def load_matrix_from_csv_schema (columns : List String) :
    Except String (String × String × String) :=
  match findColumns columns with
  | (some u, some i, some r) => Except.ok (u, i, r)
  | _ => Except.error "Could not find required columns"

/-- Modelled from the claim's words (not from the source), for comparison with
`findColumns`: resolution where the first column whose name matches an alias
is the one used. -/
def firstMatchColumns (columns : List String) :
    Option String × Option String × Option String :=
  (columns.find? (fun c => c ∈ user_aliases),
   columns.find? (fun c => c ∈ item_aliases),
   columns.find? (fun c => c ∈ rating_aliases))

/-! ## Theorems -/

/-- C3, counterexample: the per-key comparison `matched = |reference − observed| ≤ tolerance`
applied to reference 4.0 and observed 4.0000005 yields `matched = 1` already at
tolerance 1e-6 (the difference is 5e-7 ≤ 1e-6), contradicting the claim's
`matched = 0`; the same holds for `build_report`'s `np.isclose` comparison. -/
theorem verifier_example_counterexample :
    ratingMatched 4 (4 + 5 / 10000000) (1 / 1000000) = true ∧
    np_isclose 4 (4 + 5 / 10000000) (1 / 1000000) = true := by
  constructor
  · norm_num [ratingMatched, abs_of_pos]
  · norm_num [np_isclose, abs_of_pos]

/-- C3, amended: for reference 4.0 and observed 4.0000005 the comparison
`matched = |reference − observed| ≤ tolerance` yields `matched = 1` at
tolerance 1e-6 and `matched = 1` at tolerance 1e-3, and `build_report`'s
`np.isclose` comparison agrees at 1e-3. -/
theorem verifier_example_amended :
    ratingMatched 4 (4 + 5 / 10000000) (1 / 1000000) = true ∧
    ratingMatched 4 (4 + 5 / 10000000) (1 / 1000) = true ∧
    np_isclose 4 (4 + 5 / 10000000) (1 / 1000) = true := by
  refine ⟨?_, ?_, ?_⟩
  · norm_num [ratingMatched, abs_of_pos]
  · norm_num [ratingMatched, abs_of_pos]
  · norm_num [np_isclose, abs_of_pos]

/-- The two's-complement wrap is the identity on the int32 range. -/
lemma int32_cast_of_abs_lt (n : ℤ) (h : |n| < 2 ^ 31) : int32_cast n = n := by
  unfold int32_cast
  rw [abs_lt] at h
  rw [Int.emod_eq_of_lt (by omega) (by omega)]
  omega

/-- Truncation toward zero never increases the absolute value. -/
lemma truncToZero_abs_le (q : ℚ) : |(truncToZero q : ℚ)| ≤ |q| := by
  unfold truncToZero
  by_cases h : 0 ≤ q
  · rw [if_pos h, abs_of_nonneg h, abs_of_nonneg]
    · exact Int.floor_le q
    · exact_mod_cast Int.floor_nonneg.mpr h
  · push_neg at h
    rw [if_neg (not_le.mpr h), abs_of_nonpos (le_of_lt h), abs_of_nonpos]
    · exact neg_le_neg (Int.le_ceil q)
    · have hc : (⌈q⌉ : ℤ) ≤ 0 := Int.ceil_le.mpr (by exact_mod_cast le_of_lt h)
      exact_mod_cast hc

/-- C4, counterexample: the code quantizes by truncation toward zero
(`astype(np.int32)`), not by rounding: at `v = 19/655360` and `S = 65536`
(so `v*S = 1.9`, far inside the int32 range) it produces 1 while `round`
gives 2, and the round-trip error is `0.9/S`, exceeding the claimed bound
`0.5/S`. -/
theorem quantize_round_counterexample :
    quantize_value (19 / 655360) 65536 = 1 ∧
    quantize_value (19 / 655360) 65536 ≠ round ((19 / 655360 : ℚ) * 65536) ∧
    ¬ (|descale_value (quantize_value (19 / 655360) 65536) 65536 - 19 / 655360|
        ≤ 1 / 2 / 65536) := by
  refine ⟨?_, ?_, ?_⟩
  · norm_num [quantize_value, truncToZero, int32_cast]
  · norm_num [quantize_value, truncToZero, int32_cast, round_eq]
  · norm_num [descale_value, quantize_value, truncToZero, int32_cast, abs_of_pos]

/-- C4, amended: `quantize_value` computes the truncation toward zero of
`v * S` pushed through the 32-bit cast (not `round(v*S)`, and the cast neither
saturates nor rejects on overflow), and `descale_value` divides by `S`.
For every rational `v` and positive scale `S` such that `v * S` lies inside
the int32 range (no overflow of the target width), the round trip differs
from `v` by strictly less than `1/S` — not the claimed `0.5/S`. -/
theorem quantize_descale_roundtrip (v : ℚ) (S : ℕ) (hS : 0 < S)
    (hrange : |v * (S : ℚ)| < 2 ^ 31) :
    |descale_value (quantize_value v S) S - v| < 1 / (S : ℚ) := by
  have hS' : (0 : ℚ) < S := by exact_mod_cast hS
  have hS0 : (S : ℚ) ≠ 0 := ne_of_gt hS'
  have htr : quantize_value v S = truncToZero (v * S) := by
    unfold quantize_value
    apply int32_cast_of_abs_lt
    have h1 : |((truncToZero (v * (S : ℚ))) : ℚ)| ≤ |v * (S : ℚ)| :=
      truncToZero_abs_le _
    have h2 : |((truncToZero (v * (S : ℚ))) : ℚ)| < 2 ^ 31 :=
      lt_of_le_of_lt h1 hrange
    exact_mod_cast h2
  have habs : |(truncToZero (v * (S : ℚ)) : ℚ) - v * S| < 1 := by
    unfold truncToZero
    by_cases h : 0 ≤ v * (S : ℚ)
    · rw [if_pos h, abs_sub_lt_iff]
      constructor
      · have h1 := Int.floor_le (v * (S : ℚ))
        linarith
      · have h2 := Int.lt_floor_add_one (v * (S : ℚ))
        linarith
    · rw [if_neg h, abs_sub_lt_iff]
      constructor
      · have h1 := Int.ceil_lt_add_one (v * (S : ℚ))
        linarith
      · have h2 := Int.le_ceil (v * (S : ℚ))
        linarith
  have hrw : descale_value (quantize_value v S) S - v
      = ((truncToZero (v * (S : ℚ)) : ℚ) - v * S) / S := by
    rw [htr]
    unfold descale_value
    field_simp
    ring
  rw [hrw, abs_div, abs_of_pos hS', div_lt_div_iff₀ hS' hS', one_mul]
  have := (mul_lt_mul_of_pos_right habs hS')
  simpa using this

/-- Witness for `quantize_descale_roundtrip` at `v = 19/655360`, `S = 65536`
(so `v*S = 1.9`, inside the int32 range). -/
theorem quantize_descale_roundtrip_witness :
    0 < (65536 : ℕ) ∧
    |(19 / 655360 : ℚ) * ((65536 : ℕ) : ℚ)| < 2 ^ 31 ∧
    |descale_value (quantize_value (19 / 655360) 65536) 65536 - 19 / 655360|
      < 1 / ((65536 : ℕ) : ℚ) :=
  ⟨by norm_num, by norm_num [abs_of_pos],
    quantize_descale_roundtrip (19 / 655360) 65536 (by norm_num)
      (by norm_num [abs_of_pos])⟩

/-- C7: the mode decision of `main` chooses the pre-allocated strategy exactly
when `estimate × bytes_per_triple` (12 bytes: one 4-byte value and two 4-byte
indices) is at most the memory budget (`MAX_RAM_GiB`, i.e. `maxRamGiB * 1024³`
bytes), and the streaming strategy otherwise; it is a function of only those
two numbers. -/
theorem planMode_threshold (products maxRamGiB : Nat) :
    (planMode products maxRamGiB = Mode.prealloc
      ↔ products * 12 ≤ maxRamGiB * 1024 ^ 3) ∧
    (planMode products maxRamGiB = Mode.stream
      ↔ ¬ products * 12 ≤ maxRamGiB * 1024 ^ 3) := by
  have h : ((products : ℚ) * 12) / 1024 ^ 3 ≤ (maxRamGiB : ℚ)
      ↔ products * 12 ≤ maxRamGiB * 1024 ^ 3 := by
    rw [div_le_iff₀ (by positivity)]
    exact_mod_cast Iff.rfl
  have hdef : planMode products maxRamGiB
      = if ((products : ℚ) * 12) / 1024 ^ 3 ≤ (maxRamGiB : ℚ) then Mode.prealloc
        else Mode.stream := rfl
  rw [hdef]
  split_ifs with hc
  · refine ⟨⟨fun _ => h.mp hc, fun _ => rfl⟩,
      ⟨fun heq => ?_, fun hn => absurd (h.mp hc) hn⟩⟩
    cases heq
  · refine ⟨⟨fun heq => ?_, fun hle => absurd (h.mpr hle) hc⟩,
      ⟨fun _ => fun hle => hc (h.mpr hle), fun _ => rfl⟩⟩
    cases heq

/-- Every key of `groupSum l` is the key of some input row. -/
lemma groupSum_keys (l : List (ℚ × ℚ × ℚ)) :
    ∀ p ∈ groupSum l, ∃ r ∈ l, groupSumKey r = p.1 := by
  induction l using groupSum.induct with
  | case1 => simp [groupSum]
  | case2 r rest ih =>
    intro p hp
    rw [groupSum] at hp
    rcases List.mem_cons.mp hp with h | h
    · exact ⟨r, List.mem_cons_self _ _, by rw [h]⟩
    · obtain ⟨s, hs, hkey⟩ := ih p h
      exact ⟨s, List.mem_cons_of_mem _ (List.mem_of_mem_filter hs), hkey⟩

/-- The aggregated value `groupSum` reports for a key is the sum of the value
fields of the input rows with that key. -/
lemma groupSum_sum (l : List (ℚ × ℚ × ℚ)) (k : ℚ × ℚ) :
    (((groupSum l).filter (fun p => p.1 = k)).map Prod.snd).sum
      = ((l.filter (fun s => groupSumKey s = k)).map (fun s => s.2.2)).sum := by
  induction l using groupSum.induct with
  | case1 => simp [groupSum]
  | case2 r rest ih =>
    rw [groupSum]
    by_cases hk : groupSumKey r = k
    · subst hk
      have htail : (groupSum (rest.filter (fun s => groupSumKey s ≠ groupSumKey r))).filter
          (fun p => p.1 = groupSumKey r) = [] := by
        rw [List.filter_eq_nil_iff]
        intro p hp
        obtain ⟨s, hs, hkey⟩ := groupSum_keys _ p hp
        have hs2 := List.of_mem_filter hs
        simp only [decide_eq_true_eq] at hs2 ⊢
        rw [← hkey]
        exact hs2
      rw [List.filter_cons, List.filter_cons]
      simp only [decide_eq_true_eq, htail]
      simp
    · rw [List.filter_cons, List.filter_cons]
      simp only [decide_eq_true_eq, if_neg hk]
      rw [ih, List.filter_filter]
      have hcongr : ∀ s ∈ rest,
          (decide (groupSumKey s = k) && decide (groupSumKey s ≠ groupSumKey r))
            = decide (groupSumKey s = k) := by
        intro s _
        by_cases h : groupSumKey s = k
        · have hne : groupSumKey s ≠ groupSumKey r := by
            intro he
            exact hk (by rw [← he]; exact h)
          have hk2 : ¬k = groupSumKey r := fun he => hk he.symm
          simp [h, hne, hk2]
        · simp [h]
      rw [List.filter_congr hcongr]

/-- C10: `load_sw` silently drops every input triple whose `row_idx_i` field
equals 0.5 before group-and-sum: no key with row index 0.5 ever appears in its
output, while for every other key the reported sum is exactly the sum of the
matching input triples (all of them are kept). -/
theorem load_sw_drops_dummy_rows :
    (∀ (rows : List (ℚ × ℚ × ℚ)) (j : ℚ),
      ((1 / 2 : ℚ), j) ∉ (load_sw rows).map Prod.fst) ∧
    (∀ (rows : List (ℚ × ℚ × ℚ)) (i j : ℚ), i ≠ 1 / 2 →
      (((load_sw rows).filter (fun p => p.1 = (i, j))).map Prod.snd).sum
        = ((rows.filter (fun s => groupSumKey s = (i, j))).map
            (fun s => s.2.2)).sum) := by
  constructor
  · intro rows j hmem
    obtain ⟨p, hp, hkey⟩ := List.mem_map.mp hmem
    obtain ⟨r, hr, hrkey⟩ := groupSum_keys _ p hp
    have hne := List.of_mem_filter hr
    simp only [decide_eq_true_eq] at hne
    apply hne
    have : groupSumKey r = (1 / 2, j) := by rw [hrkey, hkey]
    exact congrArg Prod.fst this
  · intro rows i j hne
    unfold load_sw
    rw [groupSum_sum, List.filter_filter]
    have hcongr : ∀ s ∈ rows,
        (decide (groupSumKey s = (i, j)) && decide (s.1 ≠ 1 / 2))
          = decide (groupSumKey s = (i, j)) := by
      intro s _
      by_cases h : groupSumKey s = (i, j)
      · have h1 : ¬s.1 = 2⁻¹ := by
          have h2 : s.1 = i := congrArg Prod.fst h
          rw [h2]
          simpa [one_div] using hne
        simp [h, h1]
      · simp [h]
    rw [List.filter_congr hcongr]

/-- Witness for `load_sw_drops_dummy_rows` on the concrete input
`[(0, 0, 3), (0.5, 0, 5)]` at key `(0, 0)`. -/
theorem load_sw_drops_dummy_rows_witness :
    (0 : ℚ) ≠ 1 / 2 ∧
    (((load_sw [((0 : ℚ), (0 : ℚ), (3 : ℚ)), (1 / 2, 0, 5)]).filter
        (fun p => p.1 = ((0 : ℚ), (0 : ℚ)))).map Prod.snd).sum
      = (([((0 : ℚ), (0 : ℚ), (3 : ℚ)), (1 / 2, 0, 5)].filter
          (fun s => groupSumKey s = ((0 : ℚ), (0 : ℚ)))).map (fun s => s.2.2)).sum :=
  ⟨by norm_num, load_sw_drops_dummy_rows.2 [(0, 0, 3), (1 / 2, 0, 5)] 0 0 (by norm_num)⟩

/-- C6: on reference `{(0,1): 2.0}` and empty observed input,
`compare_recommendations` reports exactly one ID mismatch and zero rating
mismatches; and in general a key present in only one of the two inputs (either
side) is never counted among the rating (value) mismatches, which are computed
over the `_merge == 'both'` rows only. -/
theorem compare_recommendations_outer_join :
    id_mismatch_count [(((0 : Nat), (1 : Nat)), (2 : ℚ))] [] = 1 ∧
    rating_mismatch_count [(((0 : Nat), (1 : Nat)), (2 : ℚ))] [] (1 / 2) = 0 ∧
    (∀ (golden coprocessor : List ((Nat × Nat) × ℚ)) (tolerance : ℚ) (k : Nat × Nat),
      findRating coprocessor k = none →
      ∀ t ∈ rating_mismatches golden coprocessor tolerance, t.1 ≠ k) ∧
    (∀ (golden coprocessor : List ((Nat × Nat) × ℚ)) (tolerance : ℚ) (k : Nat × Nat),
      findRating golden k = none →
      ∀ t ∈ rating_mismatches golden coprocessor tolerance, t.1 ≠ k) := by
  refine ⟨by decide, by decide, ?_, ?_⟩
  · intro golden coprocessor tolerance k hnone t ht hkeq
    have ht1 : t ∈ commonRows golden coprocessor := (List.mem_filter.mp ht).1
    obtain ⟨r, hr, hmap⟩ := List.mem_filterMap.mp ht1
    obtain ⟨v, hv, hteq⟩ := Option.map_eq_some'.mp hmap
    rw [← hteq] at hkeq
    simp only at hkeq
    rw [hkeq] at hv
    rw [hnone] at hv
    cases hv
  · intro golden coprocessor tolerance k hnone t ht hkeq
    have ht1 : t ∈ commonRows golden coprocessor := (List.mem_filter.mp ht).1
    obtain ⟨r, hr, hmap⟩ := List.mem_filterMap.mp ht1
    obtain ⟨v, hv, hteq⟩ := Option.map_eq_some'.mp hmap
    rw [← hteq] at hkeq
    simp only at hkeq
    have hnone' : golden.find? (fun s => s.1 = k) = none := by
      unfold findRating at hnone
      exact Option.map_eq_none'.mp hnone
    have hall := List.find?_eq_none.mp hnone' r hr
    simp only [decide_eq_true_eq] at hall
    exact hall hkeq

/-- Witness for `compare_recommendations_outer_join`: a golden-only key `(0,0)`
is not among the rating mismatches. -/
theorem compare_recommendations_outer_join_witness :
    findRating ([] : List ((Nat × Nat) × ℚ)) (0, 0) = none ∧
    ∀ t ∈ rating_mismatches [(((0 : Nat), (0 : Nat)), (1 : ℚ))] [] 1, t.1 ≠ (0, 0) :=
  ⟨rfl, compare_recommendations_outer_join.2.2.1 [((0, 0), 1)] [] 1 (0, 0) rfl⟩

/-- No item alias is a user alias (the `elif` chain never reaches the item test
for a user-alias column, and the lists are disjoint). -/
lemma item_not_user : ∀ c ∈ item_aliases, c ∉ user_aliases := by decide

/-- No rating alias is a user alias. -/
lemma rating_not_user : ∀ c ∈ rating_aliases, c ∉ user_aliases := by decide

/-- No rating alias is an item alias. -/
lemma rating_not_item : ∀ c ∈ rating_aliases, c ∉ item_aliases := by decide

/-- The `for col in df.columns` scan with overwriting assignments resolves each
field to the last matching column, i.e. the first match in the reversed column
list. -/
lemma findColumns_last_match (columns : List String) :
    findColumns columns
      = (columns.reverse.find? (fun c => c ∈ user_aliases),
         columns.reverse.find? (fun c => c ∈ item_aliases),
         columns.reverse.find? (fun c => c ∈ rating_aliases)) := by
  induction columns using List.reverseRecOn with
  | nil => rfl
  | append_singleton l c ih =>
    have hfold : findColumns (l ++ [c])
        = (fun acc col =>
            if col ∈ user_aliases then (some col, acc.2.1, acc.2.2)
            else if col ∈ item_aliases then (acc.1, some col, acc.2.2)
            else if col ∈ rating_aliases then (acc.1, acc.2.1, some col)
            else acc) (findColumns l) c := by
      unfold findColumns
      rw [List.foldl_append, List.foldl_cons, List.foldl_nil]
    rw [hfold, ih]
    simp only [List.reverse_append, List.reverse_singleton, List.singleton_append]
    by_cases hu : c ∈ user_aliases
    · have hi : c ∉ item_aliases := fun h => item_not_user c h hu
      have hr : c ∉ rating_aliases := fun h => rating_not_user c h hu
      simp [hu, hi, hr, List.find?_cons_of_pos, List.find?_cons_of_neg]
    · by_cases hi : c ∈ item_aliases
      · have hr : c ∉ rating_aliases := fun h => rating_not_item c h hi
        simp [hu, hi, hr, List.find?_cons_of_pos, List.find?_cons_of_neg]
      · by_cases hr : c ∈ rating_aliases
        · simp [hu, hi, hr, List.find?_cons_of_pos, List.find?_cons_of_neg]
        · simp [hu, hi, hr, List.find?_cons_of_pos, List.find?_cons_of_neg]

/-- C8, counterexample: on the column list `["user", "row", "item", "rating"]`
the loader's scan resolves the user field to `"row"` (the last matching
column), not `"user"` as a first-match-wins scan would. -/
theorem alias_scan_counterexample :
    findColumns ["user", "row", "item", "rating"]
      ≠ firstMatchColumns ["user", "row", "item", "rating"] ∧
    (findColumns ["user", "row", "item", "rating"]).1 = some "row" ∧
    (firstMatchColumns ["user", "row", "item", "rating"]).1 = some "user" := by
  exact ⟨by decide, by decide, by decide⟩

/-- C8, amended: the loader resolves each of the three required fields by a
last-match-wins scan over the fixed alias table (the first match in the
reversed column list), and the load aborts with a fatal error exactly when some
required field matches no column at all. -/
theorem alias_scan_last_match_and_abort (columns : List String) :
    findColumns columns
      = (columns.reverse.find? (fun c => c ∈ user_aliases),
         columns.reverse.find? (fun c => c ∈ item_aliases),
         columns.reverse.find? (fun c => c ∈ rating_aliases)) ∧
    ((∃ e, load_matrix_from_csv_schema columns = Except.error e)
      ↔ ((∀ c ∈ columns, c ∉ user_aliases) ∨ (∀ c ∈ columns, c ∉ item_aliases)
          ∨ (∀ c ∈ columns, c ∉ rating_aliases))) := by
  refine ⟨findColumns_last_match columns, ?_⟩
  have herr : (∃ e, load_matrix_from_csv_schema columns = Except.error e)
      ↔ ((findColumns columns).1 = none ∨ (findColumns columns).2.1 = none
          ∨ (findColumns columns).2.2 = none) := by
    unfold load_matrix_from_csv_schema
    rcases hfc : findColumns columns with ⟨fu, fi, fr⟩
    rcases fu with _ | u <;> rcases fi with _ | i <;> rcases fr with _ | r <;> simp
  rw [herr, findColumns_last_match columns]
  have hgen : ∀ al : List String,
      (columns.reverse.find? (fun c => c ∈ al) = none ↔ ∀ c ∈ columns, c ∉ al) := by
    intro al
    rw [List.find?_eq_none]
    constructor
    · intro hf c hc hmem
      exact hf c (List.mem_reverse.mpr hc) (by simpa using hmem)
    · intro hf c hc
      simpa using hf c (List.mem_reverse.mp hc)
  simp only [hgen]

/-- C9, counterexample: an observed-only key whose summed value is
1.000005e-6 — strictly farther than the tolerance 1e-6 from the filled
reference value 0 — is still reported as matched, because `np.isclose` adds
numpy's default relative term `1e-5 * |observed|` to the threshold. So
"matched exactly when the present side is within tolerance of 0" fails. -/
theorem build_report_rtol_counterexample :
    build_report [] [(((0 : ℚ), (0 : ℚ)), 1000005 / 1000000000000)]
      = [(((0 : ℚ), (0 : ℚ)), 0, 1000005 / 1000000000000, true)] ∧
    ¬ (|(1000005 / 1000000000000 : ℚ) - 0| ≤ TOL) := by
  constructor
  · norm_num [build_report, np_isclose, hwLookup, TOL, abs_of_pos]
  · norm_num [TOL, abs_of_pos]

/-- C9, amended: a key present in only one of the two aggregated inputs gets no
missing-key classification; the absent side is filled with 0 and the record is
marked by `np.isclose` against 0. For a reference-only key this is exactly
`|gold| ≤ 1e-6` (so a near-zero reference-only sum is reported as a match);
for an observed-only key the effective threshold is `1e-6 + 1e-5·|observed|`. -/
theorem build_report_one_sided_keys (sw hw : List ((ℚ × ℚ) × ℚ)) (k : ℚ × ℚ)
    (g h : ℚ) :
    ((k, g) ∈ sw → (∀ s ∈ hw, s.1 ≠ k) →
      (k, g, 0, decide (|g| ≤ TOL)) ∈ build_report sw hw) ∧
    ((k, h) ∈ hw → (∀ r ∈ sw, r.1 ≠ k) →
      (k, 0, h, np_isclose 0 h TOL) ∈ build_report sw hw) := by
  constructor
  · intro hmem hnone
    have hlook : hwLookup hw k = 0 := by
      unfold hwLookup
      have hfind : hw.find? (fun s => s.1 = k) = none :=
        List.find?_eq_none.mpr (fun s hs => by simpa using hnone s hs)
      rw [hfind]
      rfl
    have hflag : np_isclose g 0 TOL = decide (|g| ≤ TOL) := by
      unfold np_isclose
      rw [decide_eq_decide]
      simp
    refine List.mem_append_left _ ?_
    have hm := List.mem_map_of_mem
      (fun r => (r.1, r.2, hwLookup hw r.1, np_isclose r.2 (hwLookup hw r.1) TOL)) hmem
    simpa [hlook, hflag] using hm
  · intro hmem hnone
    refine List.mem_append_right _ ?_
    have hany : sw.any (fun r => r.1 = k) = false := by
      rw [List.any_eq_false]
      intro r hr
      simpa using hnone r hr
    have hfilter : (k, h) ∈ hw.filter (fun s => !(sw.any (fun r => r.1 = s.1))) := by
      rw [List.mem_filter]
      exact ⟨hmem, by simp [hany]⟩
    have hm := List.mem_map_of_mem (fun s => (s.1, (0 : ℚ), s.2, np_isclose 0 s.2 TOL)) hfilter
    simpa using hm

/-- Witness for `build_report_one_sided_keys` on a reference-only key. -/
theorem build_report_one_sided_keys_witness :
    ((((0 : ℚ), (0 : ℚ)), (0 : ℚ)) ∈ [(((0 : ℚ), (0 : ℚ)), (0 : ℚ))]) ∧
    ((((0 : ℚ), (0 : ℚ)), (0 : ℚ), (0 : ℚ), decide (|(0 : ℚ)| ≤ TOL))
      ∈ build_report [(((0 : ℚ), (0 : ℚ)), (0 : ℚ))] []) :=
  ⟨by simp, (build_report_one_sided_keys [(((0 : ℚ), (0 : ℚ)), (0 : ℚ))] []
      ((0 : ℚ), (0 : ℚ)) 0 0).1 (by simp) (by simp)⟩

/-! ### CSR slice infrastructure for the generator theorems -/

/-- A step-wise monotone function on an initial segment of ℕ is monotone on
that segment. -/
lemma mono_chain (f : Nat → Nat) (n : Nat)
    (hmono : ∀ i < n, f i ≤ f (i + 1)) :
    ∀ i j, i ≤ j → j ≤ n → f i ≤ f j := by
  intro i j hij hjn
  induction j with
  | zero =>
    have : i = 0 := Nat.le_zero.mp hij
    rw [this]
  | succ m ih =>
    rcases Nat.lt_or_ge i (m + 1) with h | h
    · have h1 : i ≤ m := Nat.lt_succ_iff.mp h
      have h2 : m ≤ n := le_trans (Nat.le_succ m) hjn
      exact le_trans (ih h1 h2) (hmono m (Nat.lt_of_lt_of_le (Nat.lt_succ_self m) hjn))
    · have : i = m + 1 := le_antisymm hij h
      rw [this]

/-- A slice entirely inside the first `m` elements does not change when the
list is truncated to those `m` elements. -/
lemma take_slice_eq {α : Type} (L : List α) (m s t : Nat) (h : s + t ≤ m) :
    ((L.take m).drop s).take t = (L.drop s).take t := by
  rw [List.drop_take, List.take_take]
  congr 1
  omega

/-- Concatenating the slices `[f i, f (i+1))` of a list for `i < n`, where `f`
is a monotone index table with `f 0 = 0` and `f n` the list's length,
reproduces the whole list. This is the CSR `indptr` partition property. -/
lemma flatMap_range_slices {α : Type} (f : Nat → Nat) :
    ∀ (n : Nat) (L : List α), f 0 = 0 → (∀ i < n, f i ≤ f (i + 1)) → f n = L.length →
    ((List.range n).flatMap fun i => ((L.drop (f i)).take (f (i + 1) - f i))) = L := by
  intro n
  induction n with
  | zero =>
    intro L h0 _ hn
    have : L = [] := List.length_eq_zero.mp (by rw [← hn, h0])
    simp [this]
  | succ m ih =>
    intro L h0 hmono hn
    have hfm : f m ≤ L.length := by
      rw [← hn]
      exact mono_chain f (m + 1) hmono m (m + 1) (Nat.le_succ m) (le_refl _)
    have hlen : f m = (L.take (f m)).length := by
      rw [List.length_take]
      omega
    have hih := ih (L.take (f m)) h0
      (fun i hi => hmono i (Nat.lt_succ_of_lt hi)) hlen
    have hsl : ∀ i ∈ List.range m,
        (((L.take (f m)).drop (f i)).take (f (i + 1) - f i))
          = ((L.drop (f i)).take (f (i + 1) - f i)) := by
      intro i hi
      have him : i < m := List.mem_range.mp hi
      apply take_slice_eq
      have h1 : f i ≤ f (i + 1) := hmono i (Nat.lt_succ_of_lt him)
      have h2 : f (i + 1) ≤ f m :=
        mono_chain f (m + 1) hmono (i + 1) m him (Nat.le_succ m)
      omega
    rw [List.range_succ, List.flatMap_append]
    have hfirst : ((List.range m).flatMap fun i => ((L.drop (f i)).take (f (i + 1) - f i)))
        = L.take (f m) := by
      rw [← hih]
      exact List.flatMap_congr (fun i hi => (hsl i hi).symm)
    rw [hfirst]
    have hlast : ([m].flatMap fun i => ((L.drop (f i)).take (f (i + 1) - f i)))
        = L.drop (f m) := by
      simp only [List.flatMap_cons, List.flatMap_nil, List.append_nil]
      rw [hn]
      apply List.take_of_length_le
      rw [List.length_drop]
    rw [hlast, List.take_append_drop]

/-- The entry list of a structurally valid CSR matrix has `nnz` elements. -/
lemma entries_length (M : CSR) (h : M.StructOk) :
    M.entries.length = M.indices.length := by
  unfold CSR.entries
  rw [List.length_zip, h.2.2.2.2, Nat.min_self]

/-- The row slices of a structurally valid CSR matrix partition its entry
list. -/
lemma rowSlices_concat (M : CSR) (h : M.StructOk) :
    ((List.range M.rows).flatMap fun i => M.rowSlice i) = M.entries := by
  apply flatMap_range_slices (fun t => M.indptr.getD t 0) M.rows M.entries h.2.1
    h.2.2.1
  rw [entries_length M h]
  exact h.2.2.2.1

/-- Row `k` of a structurally valid CSR matrix has `indptr[k+1] - indptr[k]`
entries. -/
lemma rowSlice_length (M : CSR) (h : M.StructOk) (k : Nat) (hk : k < M.rows) :
    (M.rowSlice k).length = M.indptr.getD (k + 1) 0 - M.indptr.getD k 0 := by
  unfold CSR.rowSlice
  rw [List.length_take, List.length_drop, entries_length M h]
  have h1 : M.indptr.getD (k + 1) 0 ≤ M.indices.length := by
    rw [← h.2.2.2.1]
    exact mono_chain (fun t => M.indptr.getD t 0) M.rows h.2.2.1 (k + 1) M.rows
      hk (le_refl _)
  have h2 : M.indptr.getD k 0 ≤ M.indptr.getD (k + 1) 0 := h.2.2.1 k hk
  omega

/-- `np.diff` of the `indptr` array has one entry per row. -/
lemma nnzPerRow_length (M : CSR) : (nnzPerRow M).length = M.rows := by
  simp [nnzPerRow]

/-- Entry `k` of the per-row nonzero lookup table is `indptr[k+1] - indptr[k]`. -/
lemma nnzPerRow_getD (M : CSR) (k : Nat) (hk : k < M.rows) :
    (nnzPerRow M).getD k 0 = M.indptr.getD (k + 1) 0 - M.indptr.getD k 0 := by
  unfold nnzPerRow
  rw [List.getD_eq_getElem?_getD, List.getElem?_map, List.getElem?_range hk]
  rfl

/-- Invariant-preserving specification of an `Option`-valued left fold: if
every step succeeds, preserves `P`, and extends the observed output by `h x`,
then the whole fold succeeds and extends the output by `l.flatMap h`. -/
lemma foldlM_option_spec {σ α β : Type} (g : σ → α → Option σ) (P : σ → Prop)
    (out : σ → List β) (h : α → List β) :
    ∀ (l : List α),
      (∀ st x, P st → x ∈ l → ∃ st', g st x = some st' ∧ P st' ∧ out st' = out st ++ h x) →
      ∀ st, P st →
        ∃ st', l.foldlM g st = some st' ∧ P st' ∧ out st' = out st ++ l.flatMap h := by
  intro l
  induction l with
  | nil =>
    intro _ st hP
    exact ⟨st, rfl, hP, by simp⟩
  | cons a l ih =>
    intro hstep st hP
    obtain ⟨st1, hg, hP1, hout1⟩ := hstep st a hP (List.mem_cons_self a l)
    obtain ⟨st2, hfold, hP2, hout2⟩ :=
      ih (fun s x hs hx => hstep s x hs (List.mem_cons_of_mem a hx)) st1 hP1
    refine ⟨st2, ?_, hP2, ?_⟩
    · rw [List.foldlM_cons, hg]
      exact hfold
    · rw [hout2, hout1, List.flatMap_cons, List.append_assoc]

/-- If an `Option`-valued left fold succeeds, then for every list element the
step function succeeded from some intermediate state. -/
lemma foldlM_some_step {σ α : Type} (g : σ → α → Option σ) :
    ∀ (l : List α) (st r), l.foldlM g st = some r → ∀ x ∈ l, ∃ s s', g s x = some s' := by
  intro l
  induction l with
  | nil => intro st r _ x hx; cases hx
  | cons a l ih =>
    intro st r hfold x hx
    rw [List.foldlM_cons] at hfold
    rcases hg : g st a with _ | st1
    · rw [hg] at hfold
      cases hfold
    · rw [hg] at hfold
      rcases List.mem_cons.mp hx with h | h
      · subst h
        exact ⟨st, st1, hg⟩
      · exact ih st1 r hfold x h

/-- Sum over a `flatMap` equals the sum of the per-element sums. -/
lemma sum_flatMap {α β : Type} [AddMonoid β] (l : List α) (f : α → List β) :
    (l.flatMap f).sum = (l.map fun a => (f a).sum).sum := by
  rw [List.flatMap_def, List.sum_flatten, List.map_map]
  rfl

/-- A row whose `indptr` bounds coincide is empty (`row_start == row_end`). -/
lemma rowSlice_of_eq (M : CSR) (i : Nat)
    (h : M.indptr.getD i 0 = M.indptr.getD (i + 1) 0) : M.rowSlice i = [] := by
  unfold CSR.rowSlice
  rw [← h, Nat.sub_self, List.take_zero]

/-- Every element of a row slice is a stored entry of the matrix. -/
lemma mem_rowSlice_entries (M : CSR) (i : Nat) {kv : Nat × ℚ}
    (h : kv ∈ M.rowSlice i) : kv ∈ M.entries :=
  List.mem_of_mem_drop (List.mem_of_mem_take h)

/-- For a valid `A` whose column count matches `AT`'s row count, every stored
column index `k` of `A` admits the `AT_indptr[k]` / `AT_indptr[k+1]` reads. -/
lemma index_guard (A AT : CSR) (hA : A.Valid) (hAT : AT.StructOk)
    (hdim : AT.rows = A.cols) {kv : Nat × ℚ} (hkv : kv ∈ A.entries) :
    kv.1 + 1 < AT.indptr.length := by
  rcases kv with ⟨k, v⟩
  have h1 : k ∈ A.indices := (List.of_mem_zip hkv).1
  have h2 := hA.2 k h1
  rw [hAT.1]
  omega

/-- On valid inputs the pre-allocated generator succeeds and writes, in order,
the products of every `(i, k)` nonzero of `A` with the whole `AT` row `k`. -/
lemma preallocRaw_eq (A AT : CSR) (hA : A.Valid) (hAT : AT.StructOk)
    (hdim : AT.rows = A.cols) :
    preallocRaw A AT = some ((List.range A.rows).flatMap fun i =>
      (A.rowSlice i).flatMap fun kv => (AT.rowSlice kv.1).map (prodTriple i kv.2)) := by
  have hstep : ∀ (st : List (ℚ × Nat × Nat)) (i : Nat), True → i ∈ List.range A.rows →
      ∃ st', (if A.indptr.getD i 0 = A.indptr.getD (i + 1) 0 then some st
        else (A.rowSlice i).foldlM (fun acc2 kv =>
          if kv.1 + 1 < AT.indptr.length then
            (if AT.indptr.getD kv.1 0 = AT.indptr.getD (kv.1 + 1) 0 then some acc2
             else some (acc2 ++ (AT.rowSlice kv.1).map (prodTriple i kv.2)))
          else none) st) = some st' ∧ True ∧
        st' = st ++ ((A.rowSlice i).flatMap fun kv =>
          (AT.rowSlice kv.1).map (prodTriple i kv.2)) := by
    intro st i _ _
    by_cases hAi : A.indptr.getD i 0 = A.indptr.getD (i + 1) 0
    · rw [if_pos hAi]
      refine ⟨st, rfl, trivial, ?_⟩
      rw [rowSlice_of_eq A i hAi]
      simp
    · rw [if_neg hAi]
      have hinner : ∀ (st2 : List (ℚ × Nat × Nat)) (kv : Nat × ℚ), True →
          kv ∈ A.rowSlice i →
          ∃ st2', (if kv.1 + 1 < AT.indptr.length then
              (if AT.indptr.getD kv.1 0 = AT.indptr.getD (kv.1 + 1) 0 then some st2
               else some (st2 ++ (AT.rowSlice kv.1).map (prodTriple i kv.2)))
            else none) = some st2' ∧ True ∧
            st2' = st2 ++ (AT.rowSlice kv.1).map (prodTriple i kv.2) := by
        intro st2 kv _ hkv
        have hguard := index_guard A AT hA hAT hdim (mem_rowSlice_entries A i hkv)
        rw [if_pos hguard]
        by_cases hATk : AT.indptr.getD kv.1 0 = AT.indptr.getD (kv.1 + 1) 0
        · rw [if_pos hATk]
          refine ⟨st2, rfl, trivial, ?_⟩
          rw [rowSlice_of_eq AT kv.1 hATk]
          simp
        · rw [if_neg hATk]
          exact ⟨_, rfl, trivial, rfl⟩
      obtain ⟨st', hfold, _, hout⟩ := foldlM_option_spec _ (fun _ => True)
        (fun s => s) (fun kv => (AT.rowSlice kv.1).map (prodTriple i kv.2))
        (A.rowSlice i) hinner st trivial
      exact ⟨st', hfold, trivial, hout⟩
  obtain ⟨st', hfold, _, hout⟩ := foldlM_option_spec _ (fun _ => True) (fun s => s)
    (fun i => (A.rowSlice i).flatMap fun kv => (AT.rowSlice kv.1).map (prodTriple i kv.2))
    (List.range A.rows) hstep [] trivial
  unfold preallocRaw
  rw [hfold, hout]
  simp

/-- On valid inputs the estimator's total is the sum, over every stored column
index of `A`, of the per-row nonzero count of `AT`. -/
lemma estimate_products_eq_sum (A AT : CSR) (hA : A.Valid) (hdim : AT.rows = A.cols) :
    estimate_products A AT = (A.indices.map (fun k => (nnzPerRow AT).getD k 0)).sum := by
  by_cases hnnz : A.nnz = 0
  · have hempty : A.indices = [] := List.length_eq_zero.mp hnnz
    simp [estimate_products, hnnz, hempty]
  · have hfilter : A.indices.filter (fun k => k < (nnzPerRow AT).length) = A.indices := by
      rw [List.filter_eq_self]
      intro k hk
      rw [nnzPerRow_length, hdim]
      exact decide_eq_true (hA.2 k hk)
    simp only [estimate_products, if_neg hnnz, hfilter]

/-- C1: for every valid CSR matrix `A` and valid `AT` whose row range matches
`A`'s column range (in particular `AT = Aᵀ`), `estimate_products A AT` equals
the pre-allocated generator's final write cursor — the number of triples it
writes before zero-filtering. -/
theorem estimate_matches_prealloc_cursor (A AT : CSR) (hA : A.Valid) (hAT : AT.Valid)
    (hdim : AT.rows = A.cols) :
    preallocWriteCursor A AT = some (estimate_products A AT) := by
  unfold preallocWriteCursor
  rw [preallocRaw_eq A AT hA hAT.1 hdim, Option.map_some']
  congr 1
  have h1 : (((List.range A.rows).flatMap fun i =>
      (A.rowSlice i).flatMap fun kv => (AT.rowSlice kv.1).map (prodTriple i kv.2))).length
      = ((List.range A.rows).map
          (fun i => ((A.rowSlice i).map (fun kv => (AT.rowSlice kv.1).length)).sum)).sum := by
    rw [List.length_flatMap]
    congr 1
    apply List.map_congr_left
    intro i _
    simp only [Function.comp_apply]
    rw [List.length_flatMap]
    congr 1
    apply List.map_congr_left
    intro kv _
    simp [List.length_map]
  rw [h1]
  have h2 : ((List.range A.rows).map
      (fun i => ((A.rowSlice i).map (fun kv => (AT.rowSlice kv.1).length)).sum)).sum
      = (((List.range A.rows).flatMap A.rowSlice).map
          (fun kv => (AT.rowSlice kv.1).length)).sum := by
    rw [List.map_flatMap, sum_flatMap]
  rw [h2, rowSlices_concat A hA.1]
  have h3 : (A.entries.map (fun kv => (AT.rowSlice kv.1).length)).sum
      = (A.indices.map (fun k => (AT.rowSlice k).length)).sum := by
    unfold CSR.entries
    rw [show (fun kv : Nat × ℚ => (AT.rowSlice kv.1).length)
        = (fun k => (AT.rowSlice k).length) ∘ Prod.fst from rfl]
    rw [← List.map_map, List.map_fst_zip]
    rw [hA.1.2.2.2.2]
  rw [h3, estimate_products_eq_sum A AT hA hdim]
  apply congrArg
  apply List.map_congr_left
  intro k hk
  have hk2 : k < AT.rows := by
    rw [hdim]
    exact hA.2 k hk
  rw [rowSlice_length AT hAT.1 k hk2, nnzPerRow_getD AT k hk2]

/-- Witness for `estimate_matches_prealloc_cursor` on the 1×1 matrix `[[2]]`. -/
theorem estimate_matches_prealloc_cursor_witness :
    (CSR.mk 1 1 [0, 1] [0] [2]).Valid ∧
    preallocWriteCursor (CSR.mk 1 1 [0, 1] [0] [2]) (CSR.mk 1 1 [0, 1] [0] [2])
      = some (estimate_products (CSR.mk 1 1 [0, 1] [0] [2])
          (CSR.mk 1 1 [0, 1] [0] [2])) :=
  ⟨by decide, estimate_matches_prealloc_cursor _ _ (by decide) (by decide) rfl⟩

/-- The flush step does not change the emitted content `out ++ buf`. -/
lemma flushIfNeeded_emitted (chunk : Nat) (st : SState) :
    (flushIfNeeded chunk st).out ++ (flushIfNeeded chunk st).buf = st.out ++ st.buf := by
  unfold flushIfNeeded
  split_ifs with h
  · simp
  · rfl

/-- After the flush step the buffer is strictly below capacity. -/
lemma flushIfNeeded_buf_lt (chunk : Nat) (st : SState) (hchunk : 0 < chunk)
    (hle : st.buf.length ≤ chunk) :
    (flushIfNeeded chunk st).buf.length < chunk := by
  unfold flushIfNeeded
  split_ifs with h
  · simpa using hchunk
  · simp only [not_le] at h
    omega

/-- The chunked while loop terminates with enough fuel and appends exactly the
zero-filtered products of the processed `AT` row to the emitted content. -/
lemma streamInnerLoop_spec (chunk i : Nat) (a : ℚ) (hchunk : 0 < chunk) :
    ∀ (fuel : Nat) (rest : List (Nat × ℚ)) (st : SState),
      rest.length ≤ fuel → st.buf.length < chunk →
      ∃ st', streamInnerLoop chunk i a fuel rest st = some st' ∧
        st'.buf.length < chunk ∧
        st'.out ++ st'.buf = (st.out ++ st.buf)
          ++ ((rest.map (prodTriple i a)).filter (fun t => t.1 ≠ 0)) := by
  intro fuel
  induction fuel with
  | zero =>
    intro rest st hle hbuf
    have hnil : rest = [] := List.eq_nil_of_length_eq_zero (Nat.le_zero.mp hle)
    subst hnil
    exact ⟨st, rfl, hbuf, by simp⟩
  | succ fuel ih =>
    intro rest st hle hbuf
    cases rest with
    | nil => exact ⟨st, rfl, hbuf, by simp⟩
    | cons r rs =>
      simp only [streamInnerLoop]
      have hwc : ¬ (min (r :: rs).length (chunk - st.buf.length) = 0) := by
        simp only [List.length_cons]
        omega
      rw [if_neg hwc]
      have hseglen : ((r :: rs).take (min (r :: rs).length (chunk - st.buf.length))).length
          = min (r :: rs).length (chunk - st.buf.length) := by
        rw [List.length_take]
        omega
      have hvalid_le :
          ((((r :: rs).take (min (r :: rs).length (chunk - st.buf.length))).map
            (prodTriple i a)).filter (fun t => t.1 ≠ 0)).length
          ≤ min (r :: rs).length (chunk - st.buf.length) := by
        calc ((((r :: rs).take (min (r :: rs).length (chunk - st.buf.length))).map
            (prodTriple i a)).filter (fun t => t.1 ≠ 0)).length
            ≤ (((r :: rs).take (min (r :: rs).length (chunk - st.buf.length))).map
              (prodTriple i a)).length := List.length_filter_le _ _
          _ = ((r :: rs).take (min (r :: rs).length (chunk - st.buf.length))).length :=
              List.length_map _ _
          _ = min (r :: rs).length (chunk - st.buf.length) := hseglen
      have hcond : st.buf.length
          + ((((r :: rs).take (min (r :: rs).length (chunk - st.buf.length))).map
            (prodTriple i a)).filter (fun t => t.1 ≠ 0)).length ≤ chunk := by
        omega
      rw [if_pos hcond]
      have hbuf2 : ({ st with buf := st.buf
          ++ (((r :: rs).take (min (r :: rs).length (chunk - st.buf.length))).map
            (prodTriple i a)).filter (fun t => t.1 ≠ 0) } : SState).buf.length ≤ chunk := by
        simp only [List.length_append]
        omega
      have hbuf' := flushIfNeeded_buf_lt chunk _ hchunk hbuf2
      have hlen' : ((r :: rs).drop (min (r :: rs).length (chunk - st.buf.length))).length
          ≤ fuel := by
        rw [List.length_drop]
        simp only [List.length_cons] at hle ⊢
        omega
      obtain ⟨st', heq, hbuf'', hout⟩ := ih _ _ hlen' hbuf'
      refine ⟨st', heq, hbuf'', ?_⟩
      rw [hout, flushIfNeeded_emitted]
      simp only []
      conv_rhs => rw [← List.take_append_drop
        (min (r :: rs).length (chunk - st.buf.length)) (r :: rs)]
      rw [List.map_append, List.filter_append]
      simp [List.append_assoc]

/-- Processing one nonzero of `A` in the streaming generator appends exactly
that nonzero's zero-filtered products to the emitted content. -/
lemma streamRowK_spec (chunk : Nat) (AT : CSR) (i : Nat) (kv : Nat × ℚ) (st : SState)
    (hchunk : 0 < chunk) (hbuf : st.buf.length < chunk)
    (hguard : kv.1 + 1 < AT.indptr.length) :
    ∃ st', streamRowK chunk AT i kv st = some st' ∧ st'.buf.length < chunk ∧
      st'.out ++ st'.buf = (st.out ++ st.buf)
        ++ (((AT.rowSlice kv.1).map (prodTriple i kv.2)).filter (fun t => t.1 ≠ 0)) := by
  unfold streamRowK
  rw [if_pos hguard]
  by_cases hATk : AT.indptr.getD kv.1 0 = AT.indptr.getD (kv.1 + 1) 0
  · rw [if_pos hATk]
    refine ⟨st, rfl, hbuf, ?_⟩
    rw [rowSlice_of_eq AT kv.1 hATk]
    simp
  · rw [if_neg hATk]
    exact streamInnerLoop_spec chunk i kv.2 hchunk (AT.rowSlice kv.1).length
      (AT.rowSlice kv.1) st (le_refl _) hbuf

/-- C2: for every valid CSR matrix `A` and valid `AT` with matching dimensions
(in particular `AT = Aᵀ`), and any positive chunk size, the streaming generator
succeeds and its CSV output is the same multiset of zero-filtered
`(value, i, j)` triples as the pre-allocated generator's return value (in fact
the proof establishes the same sequence), so key-aggregated sums agree. -/
theorem stream_matches_prealloc (A AT : CSR) (chunk : Nat) (hA : A.Valid)
    (hAT : AT.Valid) (hdim : AT.rows = A.cols) (hchunk : 0 < chunk) :
    ∃ (st : SState) (l : List (ℚ × Nat × Nat)),
      produce_products_stream_scipy_optimized A AT chunk = some st ∧
      produce_products_scipy_optimized A AT = some l ∧
      (st.out : Multiset (ℚ × Nat × Nat)) = (l : Multiset (ℚ × Nat × Nat)) := by
  have hstep : ∀ (st : SState) (i : Nat), st.buf.length < chunk → i ∈ List.range A.rows →
      ∃ st', (if A.indptr.getD i 0 = A.indptr.getD (i + 1) 0 then some st
        else (A.rowSlice i).foldlM (fun st2 kv => streamRowK chunk AT i kv st2) st)
        = some st' ∧ st'.buf.length < chunk ∧
        st'.out ++ st'.buf = (st.out ++ st.buf) ++ ((A.rowSlice i).flatMap fun kv =>
          ((AT.rowSlice kv.1).map (prodTriple i kv.2)).filter (fun t => t.1 ≠ 0)) := by
    intro st i hbuf _
    by_cases hAi : A.indptr.getD i 0 = A.indptr.getD (i + 1) 0
    · rw [if_pos hAi]
      refine ⟨st, rfl, hbuf, ?_⟩
      rw [rowSlice_of_eq A i hAi]
      simp
    · rw [if_neg hAi]
      have hinner : ∀ (st2 : SState) (kv : Nat × ℚ), st2.buf.length < chunk →
          kv ∈ A.rowSlice i → ∃ st2', streamRowK chunk AT i kv st2 = some st2' ∧
            st2'.buf.length < chunk ∧
            st2'.out ++ st2'.buf = (st2.out ++ st2.buf)
              ++ (((AT.rowSlice kv.1).map (prodTriple i kv.2)).filter
                  (fun t => t.1 ≠ 0)) := by
        intro st2 kv hbuf2 hkv
        exact streamRowK_spec chunk AT i kv st2 hchunk hbuf2
          (index_guard A AT hA hAT.1 hdim (mem_rowSlice_entries A i hkv))
      exact foldlM_option_spec _ (fun s => s.buf.length < chunk)
        (fun s => s.out ++ s.buf)
        (fun kv => ((AT.rowSlice kv.1).map (prodTriple i kv.2)).filter (fun t => t.1 ≠ 0))
        (A.rowSlice i) hinner st hbuf
  obtain ⟨st0, hfold, hbuf0, hout0⟩ := foldlM_option_spec _
    (fun s : SState => s.buf.length < chunk)
    (fun s : SState => s.out ++ s.buf)
    (fun i => (A.rowSlice i).flatMap fun kv =>
      ((AT.rowSlice kv.1).map (prodTriple i kv.2)).filter (fun t => t.1 ≠ 0))
    (List.range A.rows) hstep ({ buf := [], out := [], totalWritten := 0 } : SState)
    (by simpa using hchunk)
  have hstream : produce_products_stream_scipy_optimized A AT chunk
      = some (if 0 < st0.buf.length then
          { buf := [], out := st0.out ++ st0.buf,
            totalWritten := st0.totalWritten + st0.buf.length } else st0) := by
    unfold produce_products_stream_scipy_optimized
    rw [hfold, Option.map_some']
  have houtF : (if 0 < st0.buf.length then
      ({ buf := [], out := st0.out ++ st0.buf,
         totalWritten := st0.totalWritten + st0.buf.length } : SState) else st0).out
      = st0.out ++ st0.buf := by
    split_ifs with h
    · rfl
    · have hnil : st0.buf = [] := by
        apply List.eq_nil_of_length_eq_zero
        omega
      simp [hnil]
  have hpre : produce_products_scipy_optimized A AT
      = some ((((List.range A.rows).flatMap fun i =>
          (A.rowSlice i).flatMap fun kv =>
            (AT.rowSlice kv.1).map (prodTriple i kv.2))).filter
              (fun t => t.1 ≠ 0)) := by
    unfold produce_products_scipy_optimized
    rw [preallocRaw_eq A AT hA hAT.1 hdim, Option.map_some']
  refine ⟨_, _, hstream, hpre, ?_⟩
  have hlist : (if 0 < st0.buf.length then
      ({ buf := [], out := st0.out ++ st0.buf,
         totalWritten := st0.totalWritten + st0.buf.length } : SState) else st0).out
      = (((List.range A.rows).flatMap fun i =>
          (A.rowSlice i).flatMap fun kv =>
            (AT.rowSlice kv.1).map (prodTriple i kv.2))).filter (fun t => t.1 ≠ 0) := by
    rw [houtF, hout0]
    rw [List.filter_flatMap]
    simp only [List.nil_append]
    apply List.flatMap_congr
    intro i _
    rw [List.filter_flatMap]
  exact congrArg (fun l : List (ℚ × Nat × Nat) => (l : Multiset (ℚ × Nat × Nat))) hlist

/-- Witness for `stream_matches_prealloc` on the 1×1 matrix `[[2]]` with chunk
size 2. -/
theorem stream_matches_prealloc_witness :
    (CSR.mk 1 1 [0, 1] [0] [2]).Valid ∧ 0 < 2 ∧
    ∃ (st : SState) (l : List (ℚ × Nat × Nat)),
      produce_products_stream_scipy_optimized (CSR.mk 1 1 [0, 1] [0] [2])
        (CSR.mk 1 1 [0, 1] [0] [2]) 2 = some st ∧
      produce_products_scipy_optimized (CSR.mk 1 1 [0, 1] [0] [2])
        (CSR.mk 1 1 [0, 1] [0] [2]) = some l ∧
      (st.out : Multiset (ℚ × Nat × Nat)) = (l : Multiset (ℚ × Nat × Nat)) :=
  ⟨by decide, by decide,
    stream_matches_prealloc _ _ 2 (by decide) (by decide) rfl (by decide)⟩

/-- C5, counterexample: on a well-formed `A` storing column index 1 paired with
an `AT` that has a single row (so `k = 1` is outside `AT`'s row range), the
estimator skips the contribution and returns the count 0, while the generator
hits the out-of-range `AT_indptr` access and fails — they do not handle the
out-of-range contraction index the same way. -/
theorem estimator_generator_divergence_counterexample :
    estimate_products (CSR.mk 1 2 [0, 1] [1] [5]) (CSR.mk 1 1 [0, 1] [0] [7]) = 0 ∧
    preallocWriteCursor (CSR.mk 1 2 [0, 1] [1] [5]) (CSR.mk 1 1 [0, 1] [0] [7])
      = none :=
  ⟨by decide, by decide⟩

/-- C5, amended: the estimator and the generator handle out-of-range
contraction indices differently: `estimate_products` silently skips such
contributions (it always returns a count), while the pre-allocated generator
raises an index error (returns no count at all) whenever any stored column
index of a structurally well-formed `A` lies outside `AT`'s row range, so on
such inputs the generator never returns the estimator's count. -/
theorem out_of_range_contraction_index (A AT : CSR) (hA : A.StructOk)
    (hbad : ∃ k ∈ A.indices, AT.indptr.length ≤ k + 1) :
    produce_products_scipy_optimized A AT = none ∧
    preallocWriteCursor A AT ≠ some (estimate_products A AT) := by
  obtain ⟨k, hk, hge⟩ := hbad
  have hnone : preallocRaw A AT = none := by
    rcases hraw : preallocRaw A AT with _ | l
    · rfl
    · exfalso
      have hlen : A.data.length = A.indices.length := hA.2.2.2.2
      have hmapfst : A.entries.map Prod.fst = A.indices := by
        unfold CSR.entries
        exact List.map_fst_zip _ _ (le_of_eq hlen.symm)
      rw [← hmapfst] at hk
      obtain ⟨kv, hkvmem, hfst⟩ := List.mem_map.mp hk
      have hv : (k, kv.2) ∈ A.entries := by
        rw [← hfst]
        simpa using hkvmem
      rw [← rowSlices_concat A hA] at hv
      obtain ⟨i, hi, hmem⟩ := List.mem_flatMap.mp hv
      unfold preallocRaw at hraw
      obtain ⟨s, s', hsi⟩ := foldlM_some_step _ (List.range A.rows) [] l hraw i hi
      by_cases hAi : A.indptr.getD i 0 = A.indptr.getD (i + 1) 0
      · rw [rowSlice_of_eq A i hAi] at hmem
        cases hmem
      · rw [if_neg hAi] at hsi
        obtain ⟨s2, s2', hkvstep⟩ :=
          foldlM_some_step _ (A.rowSlice i) s s' hsi (k, kv.2) hmem
        rw [if_neg (show ¬ ((k, kv.2).1 + 1 < AT.indptr.length) from
          Nat.not_lt.mpr hge)] at hkvstep
        cases hkvstep
  constructor
  · unfold produce_products_scipy_optimized
    rw [hnone]
    rfl
  · unfold preallocWriteCursor
    rw [hnone]
    simp

/-- Witness for `out_of_range_contraction_index` at the concrete divergent
input of the counterexample. -/
theorem out_of_range_contraction_index_witness :
    (CSR.mk 1 2 [0, 1] [1] [5]).StructOk ∧
    (produce_products_scipy_optimized (CSR.mk 1 2 [0, 1] [1] [5])
        (CSR.mk 1 1 [0, 1] [0] [7]) = none ∧
      preallocWriteCursor (CSR.mk 1 2 [0, 1] [1] [5]) (CSR.mk 1 1 [0, 1] [0] [7])
        ≠ some (estimate_products (CSR.mk 1 2 [0, 1] [1] [5])
            (CSR.mk 1 1 [0, 1] [0] [7]))) :=
  ⟨by decide, out_of_range_contraction_index _ _ (by decide) ⟨1, by decide, by decide⟩⟩

end SpGEMM
